import Mathlib

/-!
Verification of the vault-dweller core: the vault index (tag map, path
resolution, tag extraction) and the embedded query language (parser,
evaluator, output builder), shallowly embedded from `src/lib.rs` and
`src/dataview.rs`.  Rust `IndexMap`s are modelled as insertion-ordered
association lists, Rust `Vec<String>` as `List String`, panics
(`todo!`, `panic!`) as an explicit `panic` outcome, and `Result<_, E>`
as `Except E _`.
-/

namespace VaultDweller

/-! ## Insertion-ordered maps (model of `IndexMap`) -/

/-- Lookup in an insertion-ordered association list (model of `IndexMap::get`). -/
def imGet {α : Type} (m : List (String × α)) (k : String) : Option α :=
  match m with
  | [] => none
  | (k', v) :: rest => if k' = k then some v else imGet rest k

/-- Insert into an insertion-ordered association list (model of
`IndexMap::insert`): an existing key keeps its position and gets the new
value; a new key is appended at the end. -/
def imInsert {α : Type} (m : List (String × α)) (k : String) (v : α) :
    List (String × α) :=
  match m with
  | [] => [(k, v)]
  | (k', v') :: rest =>
    if k' = k then (k', v) :: rest else (k', v') :: imInsert rest k v

/-! ## Data model (`src/lib.rs`): items and the vault index

`properties` (front matter) flow through the yaml collaborator, which the
spec treats as an external black box; none of the checked claims mention
them, so the `properties` field is not carried here.  `PathBuf` fields are
carried as their rendered strings. -/

structure FolderItem where
  name : String
  path : String
  local_path : String
deriving DecidableEq

structure FileItem where
  name : String
  file_type : String
  path : String
  local_path : String
deriving DecidableEq

structure NoteItem where
  name : String
  file_type : String
  path : String
  local_path : String
  tags : List String
deriving DecidableEq

inductive VaultItem where
  | Note : NoteItem → VaultItem
  | File : FileItem → VaultItem
deriving DecidableEq

inductive FileFolder where
  | File : FileItem → FileFolder
  | Folder : FolderItem → FileFolder
  | Note : NoteItem → FileFolder
deriving DecidableEq

structure VaultIndex where
  name : String
  notes : List (String × NoteItem)
  files : List (String × FileItem)
  folders : List FolderItem
  filepath_ref : List (String × String)
  tags : List (String × List String)
deriving DecidableEq

/-- Model of the tag-registration step in `VaultIndex::new`:
`if let Some(tag_list) = tags.get_mut(tag) { tag_list.push(name) }
else { tags.insert(tag, vec![name]) }`. -/
def addTagEntry (m : List (String × List String)) (tag name : String) :
    List (String × List String) :=
  match m with
  | [] => [(tag, [name])]
  | (k, l) :: rest =>
    if k = tag then (k, l ++ [name]) :: rest
    else (k, l) :: addTagEntry rest tag name

/-- One iteration of the `for file in file_collection` loop in
`VaultIndex::new` (lines 265-289 of `src/lib.rs`). -/
def processFileFolder (st : VaultIndex) : FileFolder → VaultIndex
  | .Note fi =>
    let st := { st with
      filepath_ref := imInsert st.filepath_ref fi.local_path fi.name }
    let st := { st with
      tags := fi.tags.foldl (fun m t => addTagEntry m t fi.name) st.tags }
    { st with notes := imInsert st.notes fi.name fi }
  | .File fi =>
    { st with
      filepath_ref := imInsert st.filepath_ref fi.local_path fi.name,
      files := imInsert st.files fi.name fi }
  | .Folder fi => { st with folders := st.folders ++ [fi] }

/-- The aggregation loop of `VaultIndex::new`, applied to the walker's
output `file_collection` (the filesystem walk itself is I/O and is taken
as the already-produced list). -/
def VaultIndex.new (vname : String) (file_collection : List FileFolder) :
    VaultIndex :=
  file_collection.foldl processFileFolder
    { name := vname, notes := [], files := [], folders := [],
      filepath_ref := [], tags := [] }

/-! ## Path / item resolution (`VaultIndex::get_item`, lines 358-379) -/

/-- Model of `local_path.replace("/", "\\")`: the pattern is the single
character `/`, so the replacement is a character map. -/
def normalizeSeps (s : String) : String :=
  String.mk (s.data.map fun c => if c = '/' then '\\' else c)

def VaultIndex.get_item (idx : VaultIndex) (local_path : String) :
    Option VaultItem :=
  let adj := normalizeSeps local_path
  let key : Option String :=
    if adj.data.any (fun c => c == '\\') then imGet idx.filepath_ref adj
    else some local_path
  match key with
  | none => none
  | some k =>
    match imGet idx.notes k with
    | some note => some (VaultItem.Note note)
    | none =>
      match imGet idx.files k with
      | some file => some (VaultItem.File file)
      | none => none

/-! ## Tag prefix expansion (`VaultIndex::tag_splitter`, lines 486-502) -/

/-- Worker for `split('/')`: accumulates the current piece. -/
def splitSlashGo (cur : List Char) : List Char → List String
  | [] => [String.mk cur]
  | c :: cs =>
    if c = '/' then String.mk cur :: splitSlashGo [] cs
    else splitSlashGo (cur ++ [c]) cs

/-- Model of Rust `str::split('/')`: split at every `/`, keeping empty
pieces (`""` splits to `[""]`). -/
def splitSlash (s : String) : List String :=
  splitSlashGo [] s.data

/-- The inner `for j in 0..i+1` loop of `tag_splitter`, which joins the
first `i+1` slices with `/`. -/
def innerJoin (slices : List String) (i : Nat) : String :=
  (List.range (i + 1)).foldl
    (fun s j => (if j ≠ 0 then s ++ "/" else s) ++ slices.getD j "") ""

/-- Model of `VaultIndex::tag_splitter`: the outer `for i in 0..tag_slices.len()`
loop collecting one joined string per `i`. -/
def VaultIndex.tag_splitter (tag : String) : List String :=
  let tag_slices := splitSlash tag
  (List.range tag_slices.length).map (innerJoin tag_slices)

/-- Joins a list of segments with `/` (used to state the spec's words). -/
def joinSlash : List String → String
  | [] => ""
  | [s] => s
  | s :: rest => s ++ "/" ++ joinSlash rest

/-- Follows the spec's words for tag prefix expansion: "the cumulative
'/'-joined prefixes in order from shortest to longest". -/
def specTagExpansion (tag : String) : List String :=
  let segs := splitSlash tag
  (List.range segs.length).map (fun i => joinSlash (segs.take (i + 1)))

/-! ## Metadata extraction (`VaultIndex::generate_note_item`, lines 504-555)

The three regexes are embedded as character-list scanners with the exact
semantics of the `regex` crate on the given patterns:
fenced code, inline code, then the `\B#\S+` tag scan. -/

/-- Greedy `filter(p).repeated()` / `\S+`-style run: longest prefix
satisfying `p`, plus the remaining input. -/
def takeWhileL (p : Char → Bool) : List Char → (List Char × List Char)
  | [] => ([], [])
  | c :: cs =>
    if p c then
      let (xs, rest) := takeWhileL p cs
      (c :: xs, rest)
    else ([], c :: cs)

def startsWithTicks : List Char → Bool
  | '`' :: '`' :: '`' :: _ => true
  | _ => false

/-- Model of `codeblock_matcher.replace_all`: the greedy pattern
triple-backtick `[\w\W]*` triple-backtick matches from the first
triple-backtick to the last one starting at least 3 later, and there is
at most one such (non-overlapping) match. -/
def stripFenced (l : List Char) : List Char :=
  let starts := (List.range l.length).filter fun i => startsWithTicks (l.drop i)
  match starts with
  | [] => l
  | i :: _ =>
    match (starts.filter fun j => i + 3 ≤ j).getLast? with
    | some j => l.take i ++ l.drop (j + 3)
    | none => l

/-- Worker for the inline-code regex `[^\n\r` + backtick + `]+?` + backtick
applied with `replace_all`: scanning left to right, each shortest run of
plain (non-backtick, non-newline) characters that is followed by a
backtick is removed together with that backtick. `pending` is the current
run of plain characters not yet known to precede a backtick. -/
def stripInlineGo (acc pending : List Char) : List Char → List Char
  | [] => acc ++ pending
  | c :: cs =>
    if c = '`' then
      if pending.isEmpty then stripInlineGo (acc ++ [c]) [] cs
      else stripInlineGo acc [] cs
    else if c = '\n' ∨ c = '\r' then stripInlineGo (acc ++ pending ++ [c]) [] cs
    else stripInlineGo acc (pending ++ [c]) cs

def stripInline (l : List Char) : List Char :=
  stripInlineGo [] [] l

/-- Regex word character (`\w`), ASCII model. -/
def isWordChar (c : Char) : Bool :=
  c.isAlphanum || c = '_'

/-- Regex non-whitespace (`\S`), ASCII model. -/
def isNonSpace (c : Char) : Bool :=
  !(c = ' ' || c = '\t' || c = '\n' || c = '\r' ||
    c = '\x0b' || c = '\x0c')

/-- Scanner for `tag_matcher` = `(\B#\S+)`: a match starts at a `#` whose
preceding character (if any) is not a word character (`\B`: `#` itself is
a non-word character, so the position is not a boundary exactly when the
previous character is non-word or absent), and extends over the maximal
following run of non-whitespace characters, which must be non-empty.
Matches are non-overlapping; scanning resumes after each match.  `fuel`
only bounds the recursion and `length + 1` always suffices. -/
def scanTagsGo (fuel : Nat) (prev : Option Char) (l : List Char) :
    List String :=
  match fuel, l with
  | 0, _ => []
  | _, [] => []
  | fuel + 1, c :: rest =>
    if c == '#' && (match prev with | some p => !isWordChar p | none => true) then
      let (run, rest') := takeWhileL isNonSpace rest
      if run.isEmpty then scanTagsGo fuel (some '#') rest
      else String.mk ('#' :: run) :: scanTagsGo fuel (some (run.getLastD '#')) rest'
    else scanTagsGo fuel (some c) rest

def scanTags (l : List Char) : List String :=
  scanTagsGo (l.length + 1) none l

/-- Model of `tag.replace('#', "")`: drop every `#`. -/
def removeHashes (s : String) : String :=
  String.mk (s.data.filter fun c => c ≠ '#')

/-- Lexicographic comparison of character lists by code point; on
strings this coincides with the UTF-8 byte order `Ord` that Rust's
`Vec::sort` uses (UTF-8 byte order equals code-point order). -/
def charListLe : List Char → List Char → Bool
  | [], _ => true
  | _ :: _, [] => false
  | a :: as, b :: bs =>
    if a < b then true
    else if b < a then false
    else charListLe as bs

/-- The string order used by `Vec::sort` in the source. -/
def strLeB (a b : String) : Bool :=
  charListLe a.data b.data

/-- Model of `Vec::sort` on strings (stable sort; equal strings are
identical, so any sorted permutation is the result). -/
def rustSort (l : List String) : List String :=
  l.insertionSort (fun a b => strLeB a b = true)

/-- Model of `Vec::dedup`: remove consecutive duplicates. -/
def dedupAdjacent : List String → List String
  | [] => []
  | [x] => [x]
  | x :: y :: rest =>
    if x = y then dedupAdjacent (y :: rest)
    else x :: dedupAdjacent (y :: rest)

/-- The tag-extraction pipeline of `generate_note_item`: strip fenced code
regions, strip inline code spans, scan for `\B#\S+` matches, strip the
`#`s from each match, expand each into its cumulative prefixes, then sort
and dedup the accumulated list. -/
def extractTags (content : String) : List String :=
  let adj := stripFenced content.data
  let adj := stripInline adj
  let raw := scanTags adj
  let tags := (raw.map fun t => VaultIndex.tag_splitter (removeHashes t)).flatten
  dedupAdjacent (rustSort tags)

/-! ## Query output types (`src/dataview.rs`, lines 7-67) -/

structure ListItem where
  note_name : Option String
  additional_info : Option String
deriving DecidableEq

structure Table where
  head : List String
  rows : List (List String)
deriving DecidableEq

inductive QueryOutput where
  | List : List ListItem → QueryOutput
  | Table : Table → QueryOutput
  | Err : List String → QueryOutput
deriving DecidableEq

inductive QueryStructType where
  | List
  | Table
deriving DecidableEq

structure QueryStruct where
  output_type : QueryStructType
  «matches» : Option (List String)
  additional_info : List String
  as_statements : List (Option String)
deriving DecidableEq

def QueryStruct.new : QueryStruct :=
  { output_type := .List, «matches» := none,
    additional_info := [], as_statements := [] }

/-- Outcome of running code that may panic: a Rust panic aborts the
process, so it is a separate outcome from any returned value. -/
inductive RunResult where
  | output : QueryOutput → RunResult
  | panicked : String → RunResult
deriving DecidableEq

/-- Model of `QueryStruct::build_output`; the `Table` arm is
`todo!("Tables aren't implemented yet!")`, a panic. -/
def QueryStruct.build_output (qs : QueryStruct) : RunResult :=
  match qs.output_type with
  | .List =>
    let out_vec : List ListItem :=
      match qs.«matches» with
      | some ms => ms.map fun note => ⟨some note, none⟩
      | none => []
    .output (QueryOutput.List out_vec)
  | .Table => .panicked "Tables aren't implemented yet!"

/-! ## Query AST and evaluation (`src/dataview.rs`, lines 69-215) -/

inductive DataSource where
  | Tag : String → DataSource
  | Folder : String → DataSource
  | File : String → DataSource
  | InLink : String → DataSource
  | OutLink : String → DataSource
deriving DecidableEq

inductive Expr where
  | Invalid : Expr
  | Source : DataSource → Expr
  | From : Expr → Expr
  | List : Expr → Expr
  | Or : Expr → Expr → Expr
  | And : Expr → Expr → Expr
  | Negate : Expr → Expr
deriving DecidableEq

/-- Value of a computation that may panic instead of returning. -/
inductive PanicOr (α : Type) where
  | ok : α → PanicOr α
  | panic : String → PanicOr α
deriving DecidableEq

/-- Model of `DataSource::get_matches`: tags are looked up in the index's tag map
(an absent key is "no matches", not an error); every other source kind is
`todo!("Other sources aren't implemented yet!")`, a panic. -/
def DataSource.get_matches (s : DataSource) (index : VaultIndex) :
    PanicOr (Option (List String)) :=
  match s with
  | .Tag tag_name =>
    match imGet index.tags tag_name with
    | some v => .ok (some v)
    | none => .ok none
  | _ => .panic "not yet implemented: Other sources aren't implemented yet!"

/-- Model of `eval_or` (lines 90-107): concatenate whichever operands are present,
sort, dedup; an empty result is returned as `None`. -/
def eval_or (x y : Option (List String)) : Option (List String) :=
  let out_vec : List String := []
  let out_vec := match x with | some x_list => out_vec ++ x_list | none => out_vec
  let out_vec := match y with | some y_list => out_vec ++ y_list | none => out_vec
  let out_vec := dedupAdjacent (rustSort out_vec)
  if out_vec.isEmpty then none else some out_vec

/-- Model of `eval_and` (lines 109-127): when both operands are present, keep the
left list's elements that also occur in the right list; any absent
operand, or an empty intersection, yields `None`. -/
def eval_and (x y : Option (List String)) : Option (List String) :=
  match x, y with
  | some x_list, some y_list =>
    let out_vec := x_list.filter fun item => y_list.contains item
    if out_vec.isEmpty then none else some out_vec
  | _, _ => none

/-- Model of `eval` (lines 197-215).  The Rust signature is
`Result<Option<Vec<String>>, String>` with the `QueryStruct` threaded by
mutable reference; `Err` is never constructed by any arm, and the
catch-all arm is `todo!("Stuff here!")`, a panic.  `Expr::List` sets the
output shape before recursing; `Expr::From` records the computed match
list after recursing. -/
def eval (expr : Expr) (index : VaultIndex) (qs : QueryStruct) :
    PanicOr (Except String (Option (List String))) × QueryStruct :=
  match expr with
  | .List e =>
    let qs := { qs with output_type := QueryStructType.List }
    eval e index qs
  | .From tag =>
    match eval tag index qs with
    | (.ok (.ok m), qs') => (.ok (.ok m), { qs' with «matches» := m })
    | other => other
  | .Source source =>
    match source.get_matches index with
    | .ok m => (.ok (.ok m), qs)
    | .panic msg => (.panic msg, qs)
  | .Or x y =>
    match eval x index qs with
    | (.ok (.ok mx), qs') =>
      match eval y index qs' with
      | (.ok (.ok my), qs'') => (.ok (.ok (eval_or mx my)), qs'')
      | other => other
    | other => other
  | .And x y =>
    match eval x index qs with
    | (.ok (.ok mx), qs') =>
      match eval y index qs' with
      | (.ok (.ok my), qs'') => (.ok (.ok (eval_and mx my)), qs'')
      | other => other
    | other => other
  | _ => (.panic "not yet implemented: Stuff here!", qs)

/-! ## Query parser (`src/dataview.rs`, lines 144-195)

The chumsky combinators are embedded as a recursive-descent parser over
`List Char` with PEG backtracking (each alternative is retried on the
same input).  `fuel` bounds the recursion through parenthesised
sub-expressions and operator chains; since every unit of fuel spent
corresponds to at least one consumed character, `length + 1` always
suffices.  The source attaches no `end()`, so leftover input after a
successful parse is ignored, and the `negate` parser defined in the
source is never referenced by `atom`, so `!` cannot be parsed. -/

/-- Character class of `tag_path`: alphanumeric, `/`, `-`, `_`. -/
def isTagPathChar (c : Char) : Bool :=
  c.isAlphanum || c = '/' || c = '-' || c = '_'

/-- First character of a chumsky `text::ident`. -/
def isIdentStart (c : Char) : Bool :=
  c.isAlpha || c = '_'

/-- Continuation character of a chumsky `text::ident`. -/
def isIdentCont (c : Char) : Bool :=
  c.isAlphanum || c = '_'

/-- Model of `text::whitespace` as used by `.padded()`. -/
def skipWs : List Char → List Char
  | [] => []
  | c :: cs => if c.isWhitespace then skipWs cs else c :: cs

/-- Model of `text::keyword(kw)`: parse a C-style identifier and require it to
equal `kw`; fails (backtracking) otherwise. -/
def parseKeyword (kw : String) (input : List Char) : Option (List Char) :=
  match input with
  | [] => none
  | c :: cs =>
    if isIdentStart c then
      if String.mk (c :: (takeWhileL isIdentCont cs).1) = kw
      then some (takeWhileL isIdentCont cs).2 else none
    else none

/-- The operator alternatives `AND`/`and` → `Expr::And`,
`OR`/`or` → `Expr::Or`, tried in the source's order. -/
def parseOp (input : List Char) : Option ((Expr → Expr → Expr) × List Char) :=
  match parseKeyword "AND" input with
  | some rest => some (Expr.And, rest)
  | none =>
    match parseKeyword "and" input with
    | some rest => some (Expr.And, rest)
    | none =>
      match parseKeyword "OR" input with
      | some rest => some (Expr.Or, rest)
      | none =>
        match parseKeyword "or" input with
        | some rest => some (Expr.Or, rest)
        | none => none

mutual

/-- Model of `atom = tag.or(paren).padded()`: after leading whitespace, either
`#` + tag characters (possibly none: `repeated()` admits zero), or a
parenthesised `expr`; trailing whitespace is consumed. -/
def parseAtom : Nat → List Char → Option (Expr × List Char)
  | 0, _ => none
  | fuel + 1, input =>
    match skipWs input with
    | '#' :: rest =>
      some (Expr.Source (DataSource.Tag (String.mk (takeWhileL isTagPathChar rest).1)),
        skipWs (takeWhileL isTagPathChar rest).2)
    | '(' :: rest =>
      match parseOpe fuel rest with
      | some (e, rest') =>
        match rest' with
        | ')' :: rest'' => some (e, skipWs rest'')
        | _ => none
      | none => none
    | _ => none

/-- Model of `ope = atom.then((op.then(atom)).repeated()).foldl(...)`:
the left fold over an operator chain. -/
def parseOpe : Nat → List Char → Option (Expr × List Char)
  | 0, _ => none
  | fuel + 1, input =>
    match parseAtom fuel input with
    | some (lhs, rest) => parseOpeRest fuel lhs rest
    | none => none

/-- The `repeated()` loop of `ope`: repeatedly parse `op` then `atom`,
folding onto `lhs`; a failed iteration is backtracked and ends the
chain. -/
def parseOpeRest : Nat → Expr → List Char → Option (Expr × List Char)
  | 0, _, _ => none
  | fuel + 1, lhs, input =>
    match parseOp input with
    | some (op, rest) =>
      match parseAtom fuel rest with
      | some (rhs, rest') => parseOpeRest fuel (op lhs rhs) rest'
      | none => some (lhs, input)
    | none => some (lhs, input)

end

/-- Model of `from = keyword("FROM").ignore_then(expr).map(Expr::From).padded()`. -/
def parseFrom (fuel : Nat) (input : List Char) : Option (Expr × List Char) :=
  match parseKeyword "FROM" (skipWs input) with
  | some rest =>
    match parseOpe fuel rest with
    | some (e, rest') => some (Expr.From e, skipWs rest')
    | none => none
  | none => none

/-- Model of `decl = keyword("LIST").ignore_then(from).map(Expr::List).padded()`,
the entry point returned by `parser()`. -/
def parseDecl (fuel : Nat) (input : List Char) : Option (Expr × List Char) :=
  match parseKeyword "LIST" (skipWs input) with
  | some rest =>
    match parseFrom fuel rest with
    | some (e, rest') => some (Expr.List e, skipWs rest')
    | none => none
  | none => none

/-! ## `to_view` and the public `query` (dataview lines 217-235, lib line 426) -/

/-- Model of `to_view`: parse, evaluate on success, build the output.  A failed
parse yields `QueryOutput::Err` with chumsky's diagnostics (at least one
error is reported when no output is produced; the rendered text of
`Simple<char>` is a collaborator boundary, abstracted as a single line).
An evaluation `Err` (never actually produced) would also become
`QueryOutput::Err`; an evaluation panic aborts. -/
def to_view (in_query : String) (index : VaultIndex) : RunResult :=
  match parseDecl (in_query.data.length + 1) in_query.data with
  | some (ast, _) =>
    match eval ast index QueryStruct.new with
    | (.ok (.ok _output), qs) => qs.build_output
    | (.ok (.error eval_err), _) => .output (QueryOutput.Err [eval_err])
    | (.panic msg, _) => .panicked msg
  | none => .output (QueryOutput.Err ["parse error"])

/-- Model of `VaultIndex::query` (lines 426-428 of `src/lib.rs`): declared without
a return type (unit) while its body is the `QueryOutput`-valued call
`dataview::to_view(in_query, &self)` — as written this does not even
typecheck in Rust; the compiling reading computes the view and discards
it, which is what is modelled. -/
def VaultIndex.query (idx : VaultIndex) (in_query : String) : Unit :=
  let _ := to_view in_query idx
  ()

/-! ## Auxiliary definitions used by the theorems -/

/-- The boolean-expression ASTs the `expr` parser can actually produce:
tag sources combined with `And`/`Or`. -/
inductive GoodExpr : Expr → Prop
  | tag (s : String) : GoodExpr (.Source (.Tag s))
  | and {x y : Expr} : GoodExpr x → GoodExpr y → GoodExpr (.And x y)
  | or {x y : Expr} : GoodExpr x → GoodExpr y → GoodExpr (.Or x y)

/-- A tag body all of whose characters the `tag_path` class accepts. -/
def ValidTagStr (t : String) : Prop :=
  ∀ c ∈ t.data, isTagPathChar c = true

instance (t : String) : Decidable (ValidTagStr t) := by
  unfold ValidTagStr; infer_instance

/-- The input's next character (if any) falls outside the class `p`, so
a greedy `p`-run stops here. -/
def headStops (p : Char → Bool) : List Char → Prop
  | [] => True
  | c :: _ => p c = false

/-- The keyword of one operator link in a rendered chain. -/
def opChars : Bool → List Char
  | true => ['A', 'N', 'D']
  | false => ['O', 'R']

/-- A single separating space, absent at the end of a rendered chain. -/
def sepSpace : List (Bool × String) → List Char
  | [] => []
  | _ :: _ => [' ']

/-- Renders the operator links of a chain: `OP #tag` pieces separated by
single spaces. -/
def renderOps : List (Bool × String) → List Char
  | [] => []
  | (isAnd, t) :: rest =>
    opChars isAnd ++ (' ' :: '#' :: (t.data ++ (sepSpace rest ++ renderOps rest)))

/-- Renders a whole chain `#t0 OP1 #t1 OP2 #t2 ...`. -/
def renderChain (t0 : String) (rest : List (Bool × String)) : List Char :=
  '#' :: (t0.data ++ (sepSpace rest ++ renderOps rest))

/-- The characters of `"LIST FROM "`. -/
def listFromChars : List Char :=
  ['L', 'I', 'S', 'T', ' ', 'F', 'R', 'O', 'M', ' ']

/-- The left fold of an operator chain onto `lhs`: the left-leaning
binary tree `(((lhs OP1 t1) OP2 t2) ...)`. -/
def foldChain (lhs : Expr) (rest : List (Bool × String)) : Expr :=
  rest.foldl
    (fun acc p =>
      (if p.1 then Expr.And else Expr.Or) acc (Expr.Source (DataSource.Tag p.2)))
    lhs

/-- A note as produced for a note file (tags already extracted). -/
def mkNote (nm lp : String) (tags : List String) : NoteItem :=
  { name := nm, file_type := "md", path := "root\\" ++ lp ++ ".md",
    local_path := lp, tags := tags }

/-- A small built vault: note `A` tagged `#x`, note `B` tagged `#y`,
note `C` tagged `#x` and `#y`. -/
def sampleVault : VaultIndex :=
  VaultIndex.new "TestVault"
    [ .Note (mkNote "A" "A" (extractTags "#x")),
      .Note (mkNote "B" "B" (extractTags "#y")),
      .Note (mkNote "C" "C" (extractTags "#x #y")) ]

/-- The note of the path-resolution scenario: canonical name `N`,
relative path `Dir\N`. -/
def dirNote : NoteItem := mkNote "N" "Dir\\N" []

/-- A built vault holding `dirNote`, so that `filepath_ref` maps
`Dir\N` to `N` and `notes` maps `N` to the note. -/
def dirVault : VaultIndex := VaultIndex.new "v" [.Note dirNote]

/-! ## Lemmas about the string order, sorting, and deduplication -/

theorem charListLe_nil (ys : List Char) : charListLe [] ys = true := by
  cases ys <;> rfl

theorem charListLe_cons_iff {a b : Char} {as bs : List Char} :
    charListLe (a :: as) (b :: bs) = true ↔
      a < b ∨ (a = b ∧ charListLe as bs = true) := by
  by_cases hab : a < b
  · simp [charListLe, hab]
  · by_cases hba : b < a
    · simp [charListLe, hab, hba, ne_of_gt hba]
    · have heq : a = b := le_antisymm (not_lt.mp hba) (not_lt.mp hab)
      simp [charListLe, hab, hba, heq]

theorem charListLe_total : ∀ xs ys : List Char,
    charListLe xs ys = true ∨ charListLe ys xs = true := by
  intro xs
  induction xs with
  | nil => intro ys; left; exact charListLe_nil ys
  | cons a as ih =>
    intro ys
    cases ys with
    | nil => right; exact charListLe_nil _
    | cons b bs =>
      rcases lt_trichotomy a b with h | h | h
      · left; rw [charListLe_cons_iff]; exact Or.inl h
      · subst h
        rcases ih bs with h2 | h2
        · left; rw [charListLe_cons_iff]; exact Or.inr ⟨rfl, h2⟩
        · right; rw [charListLe_cons_iff]; exact Or.inr ⟨rfl, h2⟩
      · right; rw [charListLe_cons_iff]; exact Or.inl h

theorem charListLe_trans : ∀ xs ys zs : List Char,
    charListLe xs ys = true → charListLe ys zs = true →
    charListLe xs zs = true := by
  intro xs
  induction xs with
  | nil => intro ys zs _ _; exact charListLe_nil _
  | cons a as ih =>
    intro ys zs h1 h2
    cases ys with
    | nil => simp [charListLe] at h1
    | cons b bs =>
      cases zs with
      | nil => simp [charListLe] at h2
      | cons c cs =>
        rw [charListLe_cons_iff] at h1 h2 ⊢
        rcases h1 with h1 | ⟨h1e, h1t⟩
        · rcases h2 with h2 | ⟨h2e, h2t⟩
          · exact Or.inl (lt_trans h1 h2)
          · exact Or.inl (h2e ▸ h1)
        · rcases h2 with h2 | ⟨h2e, h2t⟩
          · exact Or.inl (h1e ▸ h2)
          · exact Or.inr ⟨h1e.trans h2e, ih bs cs h1t h2t⟩

theorem charListLe_antisymm : ∀ xs ys : List Char,
    charListLe xs ys = true → charListLe ys xs = true → xs = ys := by
  intro xs
  induction xs with
  | nil =>
    intro ys _ h2
    cases ys with
    | nil => rfl
    | cons b bs => simp [charListLe] at h2
  | cons a as ih =>
    intro ys h1 h2
    cases ys with
    | nil => simp [charListLe] at h1
    | cons b bs =>
      rw [charListLe_cons_iff] at h1 h2
      rcases h1 with h1 | ⟨h1e, h1t⟩
      · rcases h2 with h2 | ⟨h2e, h2t⟩
        · exact absurd h2 (lt_asymm h1)
        · exact absurd (h2e ▸ h1) (lt_irrefl b)
      · rcases h2 with h2 | ⟨h2e, h2t⟩
        · exact absurd (h1e ▸ h2) (lt_irrefl b)
        · rw [h1e, ih bs h1t h2t]

theorem strLeB_antisymm {a b : String}
    (h1 : strLeB a b = true) (h2 : strLeB b a = true) : a = b := by
  cases a with
  | mk d1 =>
    cases b with
    | mk d2 => exact congrArg String.mk (charListLe_antisymm d1 d2 h1 h2)

instance : IsTotal String (fun a b => strLeB a b = true) :=
  ⟨fun a b => charListLe_total a.data b.data⟩

instance : IsTrans String (fun a b => strLeB a b = true) :=
  ⟨fun a b c => charListLe_trans a.data b.data c.data⟩


theorem dedupAdjacent_cons_cons_eq {x y : String} {rest : List String}
    (h : x = y) :
    dedupAdjacent (x :: y :: rest) = dedupAdjacent (y :: rest) := by
  simp [dedupAdjacent, h]

theorem dedupAdjacent_cons_cons_ne {x y : String} {rest : List String}
    (h : x ≠ y) :
    dedupAdjacent (x :: y :: rest) = x :: dedupAdjacent (y :: rest) := by
  simp [dedupAdjacent, h]

theorem dedupAdjacent_mem (a : String) :
    ∀ l : List String, a ∈ dedupAdjacent l ↔ a ∈ l := by
  intro l
  induction l with
  | nil => simp [dedupAdjacent]
  | cons x xs ih =>
    cases xs with
    | nil => simp [dedupAdjacent]
    | cons y rest =>
      by_cases hxy : x = y
      · subst hxy
        rw [dedupAdjacent_cons_cons_eq rfl, ih]
        simp only [List.mem_cons]
        tauto
      · rw [dedupAdjacent_cons_cons_ne hxy]
        simp only [List.mem_cons, ih]

theorem dedupAdjacent_sublist :
    ∀ l : List String, (dedupAdjacent l).Sublist l := by
  intro l
  induction l with
  | nil => simp [dedupAdjacent]
  | cons x xs ih =>
    cases xs with
    | nil => simp [dedupAdjacent]
    | cons y rest =>
      by_cases hxy : x = y
      · rw [dedupAdjacent_cons_cons_eq hxy]
        exact ih.cons _
      · rw [dedupAdjacent_cons_cons_ne hxy]
        exact ih.cons₂ _

theorem dedupAdjacent_ne_nil {l : List String} (h : l ≠ []) :
    dedupAdjacent l ≠ [] := by
  cases l with
  | nil => exact absurd rfl h
  | cons x xs =>
    cases xs with
    | nil => simp [dedupAdjacent]
    | cons y rest =>
      by_cases hxy : x = y
      · rw [dedupAdjacent_cons_cons_eq hxy]
        exact dedupAdjacent_ne_nil (by simp)
      · rw [dedupAdjacent_cons_cons_ne hxy]
        simp

theorem dedupAdjacent_nodup :
    ∀ l : List String, l.Sorted (fun a b => strLeB a b = true) → (dedupAdjacent l).Nodup := by
  intro l
  induction l with
  | nil => intro _; simp [dedupAdjacent]
  | cons x xs ih =>
    intro hs
    cases xs with
    | nil => simp [dedupAdjacent]
    | cons y rest =>
      have hxle : ∀ b ∈ y :: rest, strLeB x b = true := List.rel_of_sorted_cons hs
      have hs' : (y :: rest).Sorted (fun a b => strLeB a b = true) := hs.of_cons
      by_cases hxy : x = y
      · rw [dedupAdjacent_cons_cons_eq hxy]
        exact ih hs'
      · rw [dedupAdjacent_cons_cons_ne hxy]
        rw [List.nodup_cons]
        refine ⟨?_, ih hs'⟩
        intro hmem
        rw [dedupAdjacent_mem] at hmem
        rcases List.mem_cons.mp hmem with h1 | h2
        · exact hxy h1
        · have hy : ∀ b ∈ rest, strLeB y b = true := List.rel_of_sorted_cons hs'
          exact hxy (strLeB_antisymm (hxle y (List.mem_cons_self y rest)) (hy x h2))

theorem dedupAdjacent_sorted {l : List String}
    (h : l.Sorted (fun a b => strLeB a b = true)) :
    (dedupAdjacent l).Sorted (fun a b => strLeB a b = true) :=
  List.Pairwise.sublist (dedupAdjacent_sublist l) h

theorem rustSort_perm (l : List String) : (rustSort l).Perm l :=
  List.perm_insertionSort _ l

theorem rustSort_sorted (l : List String) :
    (rustSort l).Sorted (fun a b => strLeB a b = true) :=
  List.sorted_insertionSort _ l

theorem rustSort_ne_nil {l : List String} (h : l ≠ []) : rustSort l ≠ [] := by
  intro h0
  apply h
  have hp := rustSort_perm l
  rw [h0] at hp
  exact hp.symm.eq_nil

/-- Lemma: `eval_or` written as one expression over `Option.getD`. -/
theorem eval_or_eq (x y : Option (List String)) :
    eval_or x y =
      (if (dedupAdjacent (rustSort (x.getD [] ++ y.getD []))).isEmpty then none
       else some (dedupAdjacent (rustSort (x.getD [] ++ y.getD [])))) := by
  cases x <;> cases y <;> simp [eval_or]

/-! ## Claim C1 — unimplemented AST nodes -/

/-- Claim C1: reaching a `Negate` node or a non-tag source kind (folder,
file, in-link, out-link) during evaluation is claimed to produce a
non-fatal `Err`-shaped `QueryOutput`.  In the code both places are
`todo!` panics: evaluating such a node aborts instead of returning
through the evaluator's `Result` error channel.  (The parser never emits
these nodes, so the only way to reach them is to build the AST
directly.) -/
theorem c1_unimplemented_nodes_panic :
    ∀ (index : VaultIndex) (qs : QueryStruct),
      eval (Expr.Negate (Expr.Source (DataSource.Tag "x"))) index qs
        = (.panic "not yet implemented: Stuff here!", qs)
      ∧ eval (Expr.Source (DataSource.Folder "f")) index qs
        = (.panic "not yet implemented: Other sources aren't implemented yet!", qs)
      ∧ DataSource.get_matches (DataSource.File "g") index
        = .panic "not yet implemented: Other sources aren't implemented yet!"
      ∧ DataSource.get_matches (DataSource.InLink "l") index
        = .panic "not yet implemented: Other sources aren't implemented yet!"
      ∧ DataSource.get_matches (DataSource.OutLink "o") index
        = .panic "not yet implemented: Other sources aren't implemented yet!" := by
  intro index qs
  exact ⟨rfl, rfl, rfl, rfl, rfl⟩

/-! ## Claim C3 — path / item resolution -/

/-- Claim C3: for the note with canonical name `N` and relative path
`Dir\N` recorded in `filepath_ref` by construction, `get_item "N"`,
`get_item "Dir/N"` and `get_item "Dir\N"` all resolve to the identical
entity; the lookup normalizes `/` to the separator used by the
`filepath_ref` keys (`\`) before resolving. -/
theorem c3_get_item_path_forms_agree :
    dirVault.get_item "N" = some (VaultItem.Note dirNote)
    ∧ dirVault.get_item "Dir/N" = some (VaultItem.Note dirNote)
    ∧ dirVault.get_item "Dir\\N" = some (VaultItem.Note dirNote)
    ∧ normalizeSeps "Dir/N" = "Dir\\N"
    ∧ imGet dirVault.filepath_ref "Dir\\N" = some "N" := by
  exact ⟨rfl, rfl, rfl, rfl, rfl⟩

/-! ## Claim C4 — And-combination -/

/-- Claim C4: `eval_and` with an absent operand on either side is absent
(never the non-absent side); when both operands are present the result
is the set intersection keeping the left operand's order (a sublist of
the left operand whose members are exactly the common members), and on
`[b,a,c]` and `[c,a]` it is `[a,c]`. -/
theorem c4_eval_and_intersection :
    (∀ x : Option (List String), eval_and x none = none)
    ∧ (∀ y : Option (List String), eval_and none y = none)
    ∧ (∀ xs ys zs : List String, eval_and (some xs) (some ys) = some zs →
        zs.Sublist xs ∧ ∀ a : String, a ∈ zs ↔ a ∈ xs ∧ a ∈ ys)
    ∧ eval_and (some ["b", "a", "c"]) (some ["c", "a"]) = some ["a", "c"] := by
  refine ⟨?_, ?_, ?_, by decide⟩
  · intro x; cases x <;> rfl
  · intro y; cases y <;> rfl
  · intro xs ys zs h
    simp only [eval_and] at h
    split at h
    · exact absurd h (by simp)
    · have hz : zs = xs.filter fun item => ys.contains item :=
        (Option.some.injEq _ _ ▸ h).symm
      subst hz
      refine ⟨List.filter_sublist _, ?_⟩
      intro a
      simp [List.mem_filter]

/-- Witness for C4 at the concrete input `[b,a,c]` ∩ `[c,a]` = `[a,c]`. -/
theorem c4_eval_and_intersection_witness :
    (["a", "c"] : List String).Sublist ["b", "a", "c"]
    ∧ ("a" ∈ (["a", "c"] : List String)
        ↔ "a" ∈ (["b", "a", "c"] : List String)
          ∧ "a" ∈ (["c", "a"] : List String)) := by
  have h := c4_eval_and_intersection.2.2.1 ["b", "a", "c"] ["c", "a"]
    ["a", "c"] (by decide)
  exact ⟨h.1, h.2 "a"⟩

/-! ## Claim C5 — Or-combination -/

/-- Claim C5: `eval_or` with two absent operands is absent; with one
absent operand it yields the present list after sort + dedup (absent is
an identity element; present operand lists arising in evaluation are
never empty, see C10); with two present lists it yields their union,
re-sorted and deduplicated — in particular any present result is sorted,
duplicate-free, and contains exactly the members of the two operands. -/
theorem c5_eval_or_union :
    eval_or none none = none
    ∧ (∀ l : List String, l ≠ [] →
        eval_or (some l) none = some (dedupAdjacent (rustSort l))
        ∧ eval_or none (some l) = some (dedupAdjacent (rustSort l)))
    ∧ (∀ xs ys : List String, xs ++ ys ≠ [] →
        eval_or (some xs) (some ys) = some (dedupAdjacent (rustSort (xs ++ ys))))
    ∧ (∀ (x y : Option (List String)) (zs : List String),
        eval_or x y = some zs →
        zs.Sorted (fun a b => strLeB a b = true) ∧ zs.Nodup
        ∧ ∀ a : String, a ∈ zs ↔ a ∈ x.getD [] ∨ a ∈ y.getD []) := by
  have hne : ∀ l : List String, l ≠ [] →
      (dedupAdjacent (rustSort l)).isEmpty = false := by
    intro l hl
    have := dedupAdjacent_ne_nil (rustSort_ne_nil hl)
    simpa [List.isEmpty_iff] using this
  refine ⟨rfl, ?_, ?_, ?_⟩
  · intro l hl
    constructor
    · rw [eval_or_eq]
      simp [hne l hl]
    · rw [eval_or_eq]
      simp [hne l hl]
  · intro xs ys hne'
    rw [eval_or_eq]
    simp [hne _ hne']
  · intro x y zs h
    rw [eval_or_eq] at h
    split at h
    · exact absurd h (by simp)
    · have hz : zs = dedupAdjacent (rustSort (x.getD [] ++ y.getD [])) :=
        (Option.some.injEq _ _ ▸ h).symm
      subst hz
      refine ⟨dedupAdjacent_sorted (rustSort_sorted _),
        dedupAdjacent_nodup _ (rustSort_sorted _), ?_⟩
      intro a
      rw [dedupAdjacent_mem, (rustSort_perm _).mem_iff, List.mem_append]

/-- Witness for C5: the absent operand is an identity on the concrete
list `[b,a,a]` (up to sort + dedup), on both sides. -/
theorem c5_eval_or_union_witness :
    eval_or (some ["b", "a", "a"]) none = some ["a", "b"]
    ∧ eval_or none (some ["b", "a", "a"]) = some ["a", "b"] := by
  have h := c5_eval_or_union.2.1 ["b", "a", "a"] (by decide)
  exact ⟨h.1.trans (by decide), h.2.trans (by decide)⟩

/-! ## Claim C10 — present results are never empty -/

/-- Claim C10 (implicit invariant): neither combination operation ever
returns a present-but-empty match list; an empty union or intersection
is represented as absent. -/
theorem c10_no_present_empty_list :
    ∀ (x y : Option (List String)) (l : List String),
      (eval_or x y = some l → l ≠ []) ∧ (eval_and x y = some l → l ≠ []) := by
  intro x y l
  constructor
  · intro h hl
    subst hl
    rw [eval_or_eq] at h
    split at h
    · exact absurd h (by simp)
    · rename_i hemp
      have hz : ([] : List String)
          = dedupAdjacent (rustSort (x.getD [] ++ y.getD [])) :=
        (Option.some.injEq _ _ ▸ h).symm
      rw [← hz] at hemp
      simp at hemp
  · intro h hl
    subst hl
    simp only [eval_and] at h
    split at h
    · split at h
      · rename_i hemp
        exact absurd h (by simp)
      · rename_i hemp
        have hz := (Option.some.injEq _ _ ▸ h).symm
        rw [← hz] at hemp
        simp at hemp
    · exact absurd h (by simp)

/-- Witness for C10 at concrete present results of each operation. -/
theorem c10_no_present_empty_list_witness :
    ((["a"] : List String) ≠ []) ∧ ((["b"] : List String) ≠ []) :=
  ⟨(c10_no_present_empty_list (some ["a"]) none ["a"]).1 (by decide),
   (c10_no_present_empty_list (some ["b"]) (some ["b"]) ["b"]).2 (by decide)⟩

/-! ## Claim C8 — code-region stripping before tag scanning -/

/-- Counterexample to claim C8: the claim says tags outside code regions
are still extracted, but the inline-code pattern `[^\n\r`BT`]+?`BT
(`BT` the backtick) also consumes the run of plain characters preceding
each backtick, so the tag `#out`, outside the inline span in
`#out `BT`#in`BT, is destroyed and nothing is extracted — while the same
tag alone is extracted. -/
theorem c8_code_regions_counterexample :
    extractTags "#out `#in`" = [] ∧ extractTags "#out more" = ["out"] := by
  exact ⟨by decide, by decide⟩

/-- Claim C8 as amended: fenced code regions and inline code spans are
removed before tag scanning, so tag-like substrings inside code regions
are never extracted; but the inline-span removal deletes, together with
each backtick, the shortest run of non-backtick characters preceding it
on the same line, so a tag preceding an inline code span on its line is
also removed, and only tags not followed by a backtick on their line are
still extracted. -/
theorem c8_code_regions_amended :
    extractTags "```fence #in1 ```" = []
    ∧ extractTags "`#in2`" = []
    ∧ extractTags "#out `#in`" = []
    ∧ extractTags "a #tag b" = ["tag"]
    ∧ extractTags "#keep\n`#gone`" = ["keep"]
    ∧ stripInline "x `y` z".data = [' ', 'z'] := by
  refine ⟨by decide, by decide, by decide, by decide, by decide, by decide⟩

/-! ## Claim C7 — tag prefix expansion and registration -/

theorem str_empty_append (s : String) : "" ++ s = s := by
  cases s with
  | mk d => rfl

theorem str_append_assoc (a b c : String) : a ++ b ++ c = a ++ (b ++ c) := by
  cases a with
  | mk d1 =>
    cases b with
    | mk d2 =>
      cases c with
      | mk d3 => exact congrArg String.mk (List.append_assoc d1 d2 d3)

theorem joinSlash_append_single :
    ∀ (l : List String) (x : String), l ≠ [] →
      joinSlash (l ++ [x]) = joinSlash l ++ "/" ++ x := by
  intro l
  induction l with
  | nil => intro x h; exact absurd rfl h
  | cons a l' ih =>
    intro x _
    cases l' with
    | nil => rfl
    | cons b l'' =>
      show a ++ "/" ++ joinSlash ((b :: l'') ++ [x])
        = (a ++ "/" ++ joinSlash (b :: l'')) ++ "/" ++ x
      rw [ih x (by simp)]
      simp [str_append_assoc]

theorem innerJoin_eq_joinSlash :
    ∀ (slices : List String) (i : Nat), i < slices.length →
      innerJoin slices i = joinSlash (slices.take (i + 1)) := by
  intro slices i
  induction i with
  | zero =>
    intro h
    cases slices with
    | nil => exact absurd h (by simp)
    | cons s rest =>
      show "" ++ s = joinSlash [s]
      exact str_empty_append s
  | succ i ih =>
    intro h
    have hi : i < slices.length := Nat.lt_of_succ_lt h
    have step : innerJoin slices (i + 1)
        = innerJoin slices i ++ "/" ++ slices.getD (i + 1) "" := by
      unfold innerJoin
      rw [List.range_succ, List.foldl_append]
      simp
    rw [step, ih hi]
    have htake : slices.take (i + 2) = slices.take (i + 1) ++ [slices.getD (i + 1) ""] := by
      rw [List.take_succ]
      congr 1
      rw [List.getElem?_eq_getElem h]
      simp [List.getD_eq_getElem?_getD, List.getElem?_eq_getElem h]
    rw [htake, joinSlash_append_single]
    intro hnil
    rcases List.take_eq_nil_iff.mp hnil with h0 | h0
    · exact absurd h0 (by omega)
    · rw [h0] at hi
      simp at hi

theorem tag_splitter_eq_spec (t : String) :
    VaultIndex.tag_splitter t = specTagExpansion t := by
  unfold VaultIndex.tag_splitter specTagExpansion
  refine List.map_congr_left ?_
  intro i hi
  exact innerJoin_eq_joinSlash _ i (List.mem_range.mp hi)

theorem addTagEntry_self (m : List (String × List String)) (tag name : String) :
    ∃ l, imGet (addTagEntry m tag name) tag = some l ∧ name ∈ l := by
  induction m with
  | nil => exact ⟨[name], by simp [addTagEntry, imGet], by simp⟩
  | cons p rest ih =>
    obtain ⟨k, v⟩ := p
    by_cases hk : k = tag
    · subst hk
      exact ⟨v ++ [name], by simp [addTagEntry, imGet], by simp⟩
    · obtain ⟨l, hl, hm⟩ := ih
      refine ⟨l, ?_, hm⟩
      simp only [addTagEntry, if_neg hk, imGet, hk, ite_false]
      exact hl

theorem addTagEntry_preserves {m : List (String × List String)}
    {t' : String} {l' : List String} (tag name name' : String)
    (h : imGet m t' = some l') (hm : name' ∈ l') :
    ∃ l'', imGet (addTagEntry m tag name) t' = some l'' ∧ name' ∈ l'' := by
  induction m with
  | nil => simp [imGet] at h
  | cons p rest ih =>
    obtain ⟨k, v⟩ := p
    by_cases hk : k = tag
    · subst hk
      by_cases ht : k = t'
      · subst ht
        have hv : v = l' := by simpa [imGet] using h
        subst hv
        exact ⟨v ++ [name], by simp [addTagEntry, imGet], by simp [hm]⟩
      · simp only [imGet, if_neg ht] at h
        exact ⟨l', by simp [addTagEntry, imGet, ht, h], hm⟩
    · by_cases ht : k = t'
      · subst ht
        have hv : v = l' := by simpa [imGet] using h
        subst hv
        exact ⟨v, by simp [addTagEntry, imGet, hk], hm⟩
      · simp only [imGet, if_neg ht] at h
        obtain ⟨l'', hl'', hm''⟩ := ih h
        refine ⟨l'', ?_, hm''⟩
        simp only [addTagEntry, if_neg hk, imGet, if_neg ht]
        exact hl''

theorem tagsFold_preserves (name name' : String) :
    ∀ (ts : List String) (tags0 : List (String × List String))
      (t' : String) (l' : List String),
      imGet tags0 t' = some l' → name' ∈ l' →
      ∃ l'', imGet (ts.foldl (fun m t => addTagEntry m t name) tags0) t'
          = some l'' ∧ name' ∈ l'' := by
  intro ts
  induction ts with
  | nil => intro tags0 t' l' h hm; exact ⟨l', h, hm⟩
  | cons t0 ts' ih =>
    intro tags0 t' l' h hm
    obtain ⟨l1, hl1, hm1⟩ := addTagEntry_preserves t0 name name' h hm
    exact ih (addTagEntry tags0 t0 name) t' l1 hl1 hm1

theorem tagsFold_mem (name : String) :
    ∀ (ts : List String) (tags0 : List (String × List String)) (t : String),
      t ∈ ts →
      ∃ l, imGet (ts.foldl (fun m t => addTagEntry m t name) tags0) t
          = some l ∧ name ∈ l := by
  intro ts
  induction ts with
  | nil => intro tags0 t h; exact absurd h (by simp)
  | cons t0 ts' ih =>
    intro tags0 t h
    rcases List.mem_cons.mp h with h0 | h1
    · subst h0
      obtain ⟨l1, hl1, hm1⟩ := addTagEntry_self tags0 t name
      exact tagsFold_preserves name name ts' _ t l1 hl1 hm1
    · exact ih (addTagEntry tags0 t0 name) t h1

theorem processFileFolder_tags_preserves (ff : FileFolder) (st : VaultIndex)
    {t : String} {l : List String} (name' : String)
    (h : imGet st.tags t = some l) (hm : name' ∈ l) :
    ∃ l'', imGet (processFileFolder st ff).tags t = some l'' ∧ name' ∈ l'' := by
  cases ff with
  | Note fi => exact tagsFold_preserves fi.name name' fi.tags st.tags t l h hm
  | File fi => exact ⟨l, h, hm⟩
  | Folder fi => exact ⟨l, h, hm⟩

theorem buildFold_tags_preserves :
    ∀ (coll : List FileFolder) (st : VaultIndex) (t : String)
      (l : List String) (name' : String),
      imGet st.tags t = some l → name' ∈ l →
      ∃ l'', imGet ((coll.foldl processFileFolder st).tags) t = some l''
        ∧ name' ∈ l'' := by
  intro coll
  induction coll with
  | nil => intro st t l name' h hm; exact ⟨l, h, hm⟩
  | cons ff coll' ih =>
    intro st t l name' h hm
    obtain ⟨l1, hl1, hm1⟩ := processFileFolder_tags_preserves ff st name' h hm
    exact ih (processFileFolder st ff) t l1 name' hl1 hm1

theorem buildFold_registers :
    ∀ (coll : List FileFolder) (st : VaultIndex) (fi : NoteItem) (t : String),
      FileFolder.Note fi ∈ coll → t ∈ fi.tags →
      ∃ l, imGet ((coll.foldl processFileFolder st).tags) t = some l
        ∧ fi.name ∈ l := by
  intro coll
  induction coll with
  | nil => intro st fi t h _; exact absurd h (by simp)
  | cons ff coll' ih =>
    intro st fi t h ht
    rcases List.mem_cons.mp h with h0 | h1
    · subst h0
      obtain ⟨l1, hl1, hm1⟩ := tagsFold_mem fi.name fi.tags st.tags t ht
      exact buildFold_tags_preserves coll' _ t l1 fi.name hl1 hm1
    · exact ih (processFileFolder st ff) fi t h1 ht

/-- Claim C7: `tag_splitter` yields exactly the cumulative `/`-joined
prefixes, shortest to longest (refinement against the spec-side
definition, plus the concrete `a/b/c` instance, also through the full
extraction pipeline), and every tag carried by a note — in particular
each expanded prefix — is registered in the built index's tag map as an
entry containing the owning note's name. -/
theorem c7_tag_prefix_expansion :
    (∀ t : String, VaultIndex.tag_splitter t = specTagExpansion t)
    ∧ VaultIndex.tag_splitter "a/b/c" = ["a", "a/b", "a/b/c"]
    ∧ extractTags "#a/b/c" = ["a", "a/b", "a/b/c"]
    ∧ (∀ (coll : List FileFolder) (vname : String) (fi : NoteItem) (t : String),
        FileFolder.Note fi ∈ coll → t ∈ fi.tags →
        ∃ l, imGet (VaultIndex.new vname coll).tags t = some l ∧ fi.name ∈ l) := by
  refine ⟨tag_splitter_eq_spec, by decide, by decide, ?_⟩
  intro coll vname fi t hmem ht
  exact buildFold_registers coll _ fi t hmem ht

/-- Witness for C7: a vault with one note carrying tag `a/b/c` registers
the prefix `a/b` as a tag-map entry containing the note's name. -/
theorem c7_tag_prefix_expansion_witness :
    ∃ l, imGet (VaultIndex.new "v"
        [FileFolder.Note (mkNote "n1" "n1" (extractTags "#a/b/c"))]).tags
        "a/b" = some l
      ∧ (mkNote "n1" "n1" (extractTags "#a/b/c")).name ∈ l :=
  c7_tag_prefix_expansion.2.2.2
    [FileFolder.Note (mkNote "n1" "n1" (extractTags "#a/b/c"))] "v"
    (mkNote "n1" "n1" (extractTags "#a/b/c")) "a/b"
    (by simp) (by decide)

/-! ## Claim C9 — parse failure handling -/

/-- Claim C9: whenever parsing fails — as for the misspelled keyword in
`"LIST FORM #x"` — `to_view` returns an `Err`-shaped `QueryOutput`
carrying a non-empty diagnostics list and no matches; no AST is
evaluated (the `Err` arm is taken before any evaluation). -/
theorem c9_parse_failure_err :
    (∀ (s : String) (index : VaultIndex),
      parseDecl (s.data.length + 1) s.data = none →
      ∃ msgs : List String, msgs ≠ []
        ∧ to_view s index = RunResult.output (QueryOutput.Err msgs))
    ∧ parseDecl ("LIST FORM #x".data.length + 1) "LIST FORM #x".data = none := by
  constructor
  · intro s index h
    refine ⟨["parse error"], by simp, ?_⟩
    unfold to_view
    rw [h]
  · decide

/-- Witness for C9 at the concrete malformed query `"LIST FORM #x"`. -/
theorem c9_parse_failure_err_witness :
    ∃ msgs : List String, msgs ≠ []
      ∧ to_view "LIST FORM #x" sampleVault
        = RunResult.output (QueryOutput.Err msgs) :=
  c9_parse_failure_err.1 "LIST FORM #x" sampleVault (by decide)

/-! ## Claim C2 — the query entry point and `to_view` totality -/

theorem parseOp_shape {input : List Char} {op : Expr → Expr → Expr}
    {rest : List Char} (h : parseOp input = some (op, rest)) :
    op = Expr.And ∨ op = Expr.Or := by
  unfold parseOp at h
  split at h
  · injection h with h1
    injection h1 with ha _
    exact Or.inl ha.symm
  · split at h
    · injection h with h1
      injection h1 with ha _
      exact Or.inl ha.symm
    · split at h
      · injection h with h1
        injection h1 with ha _
        exact Or.inr ha.symm
      · split at h
        · injection h with h1
          injection h1 with ha _
          exact Or.inr ha.symm
        · simp at h

/-- Every AST the expression parsers can produce lies in the
tag/And/Or fragment. -/
theorem parse_good (fuel : Nat) :
    (∀ input e rest, parseAtom fuel input = some (e, rest) → GoodExpr e)
    ∧ (∀ input e rest, parseOpe fuel input = some (e, rest) → GoodExpr e)
    ∧ (∀ input lhs e rest, GoodExpr lhs →
        parseOpeRest fuel lhs input = some (e, rest) → GoodExpr e) := by
  induction fuel with
  | zero =>
    refine ⟨?_, ?_, ?_⟩
    · intro input e rest h; simp [parseAtom] at h
    · intro input e rest h; simp [parseOpe] at h
    · intro input lhs e rest _ h; simp [parseOpeRest] at h
  | succ n ih =>
    obtain ⟨ihA, ihO, ihR⟩ := ih
    refine ⟨?_, ?_, ?_⟩
    · intro input e rest h
      simp only [parseAtom] at h
      split at h
      · injection h with h1
        injection h1 with ha _
        exact ha ▸ GoodExpr.tag _
      · rename_i rest0 heq0
        cases hope : parseOpe n rest0 with
        | none => rw [hope] at h; simp at h
        | some pr =>
          obtain ⟨e1, rest1⟩ := pr
          rw [hope] at h
          split at h
          · rename_i e2 rest2 heq2
            injection heq2 with heq3
            injection heq3 with he2 hr2
            subst he2
            subst hr2
            split at h
            · injection h with h1
              injection h1 with ha _
              exact ha ▸ ihO _ _ _ hope
            · simp at h
          · simp at h
      · simp at h
    · intro input e rest h
      simp only [parseOpe] at h
      split at h
      · rename_i lhs rest1 hatom
        exact ihR _ _ _ _ (ihA _ _ _ hatom) h
      · simp at h
    · intro input lhs e rest hlhs h
      simp only [parseOpeRest] at h
      split at h
      · rename_i op rest0 hop
        split at h
        · rename_i rhs rest1 hatom
          have hrhs := ihA _ _ _ hatom
          have hgood : GoodExpr (op lhs rhs) := by
            rcases parseOp_shape hop with ho | ho
            · exact ho ▸ GoodExpr.and hlhs hrhs
            · exact ho ▸ GoodExpr.or hlhs hrhs
          exact ihR _ _ _ _ hgood h
        · injection h with h1
          injection h1 with ha _
          exact ha ▸ hlhs
      · injection h with h1
        injection h1 with ha _
        exact ha ▸ hlhs

/-- Evaluating a good expression never panics and never errs, and it
leaves the recorded output shape unchanged. -/
theorem eval_good {e : Expr} (he : GoodExpr e) (index : VaultIndex) :
    ∀ qs : QueryStruct, ∃ m qs',
      eval e index qs = (.ok (.ok m), qs')
      ∧ qs'.output_type = qs.output_type := by
  induction he with
  | tag s =>
    intro qs
    cases hg : imGet index.tags s with
    | none => exact ⟨none, qs, by simp [eval, DataSource.get_matches, hg], rfl⟩
    | some v => exact ⟨some v, qs, by simp [eval, DataSource.get_matches, hg], rfl⟩
  | and hx hy ihx ihy =>
    intro qs
    obtain ⟨mx, qs1, h1, e1⟩ := ihx qs
    obtain ⟨my, qs2, h2, e2⟩ := ihy qs1
    exact ⟨eval_and mx my, qs2, by simp [eval, h1, h2], e2.trans e1⟩
  | or hx hy ihx ihy =>
    intro qs
    obtain ⟨mx, qs1, h1, e1⟩ := ihx qs
    obtain ⟨my, qs2, h2, e2⟩ := ihy qs1
    exact ⟨eval_or mx my, qs2, by simp [eval, h1, h2], e2.trans e1⟩

/-- Evaluating a parsed `LIST FROM` AST yields an ok result with the
output shape recorded as a list. -/
theorem eval_list_from_good {e : Expr} (he : GoodExpr e) (index : VaultIndex)
    (qs : QueryStruct) :
    ∃ m qs', eval (Expr.List (Expr.From e)) index qs = (.ok (.ok m), qs')
      ∧ qs'.output_type = QueryStructType.List := by
  obtain ⟨m, qs', h, ho⟩ := eval_good he index { qs with output_type := .List }
  refine ⟨m, { qs' with «matches» := m }, ?_, ?_⟩
  · simp [eval, h]
  · simpa using ho

/-- The declaration parser only produces `List (From e)` ASTs with `e`
in the good fragment. -/
theorem parseDecl_shape {fuel : Nat} {input : List Char} {ast : Expr}
    {rest : List Char} (h : parseDecl fuel input = some (ast, rest)) :
    ∃ e, ast = Expr.List (Expr.From e) ∧ GoodExpr e := by
  unfold parseDecl at h
  split at h
  · split at h
    · rename_i e1 rest1 hfrom
      injection h with h1
      injection h1 with ha _
      unfold parseFrom at hfrom
      split at hfrom
      · split at hfrom
        · rename_i e2 rest2 hope
          injection hfrom with h2
          injection h2 with hc _
          exact ⟨e2, by rw [← ha, ← hc], (parse_good fuel).2.1 _ _ _ hope⟩
        · simp at hfrom
      · simp at hfrom
    · simp at h
  · simp at h

theorem to_view_parse_some {s : String} {index : VaultIndex} {ast : Expr}
    {rest : List Char}
    (hp : parseDecl (s.data.length + 1) s.data = some (ast, rest)) :
    to_view s index =
      match eval ast index QueryStruct.new with
      | (.ok (.ok _output), qs) => qs.build_output
      | (.ok (.error eval_err), _) => .output (QueryOutput.Err [eval_err])
      | (.panic msg, _) => .panicked msg := by
  unfold to_view
  rw [hp]

/-- Claim C2: the computed view is always a `QueryOutput` value (one of
the three variants `List`/`Table`/`Err` of that type; evaluation of any
parser-produced AST cannot panic) — but the public `query` method
returns unit, discarding that value instead of handing it to the
caller. -/
theorem c2_query_discards_queryoutput :
    ∀ (index : VaultIndex) (s : String),
      VaultIndex.query index s = ()
      ∧ ∃ qo : QueryOutput, to_view s index = RunResult.output qo := by
  intro index s
  refine ⟨rfl, ?_⟩
  cases hp : parseDecl (s.data.length + 1) s.data with
  | none =>
    refine ⟨QueryOutput.Err ["parse error"], ?_⟩
    unfold to_view
    rw [hp]
  | some pr =>
    obtain ⟨ast, rest⟩ := pr
    obtain ⟨e, hast, he⟩ := parseDecl_shape hp
    subst hast
    obtain ⟨m, qs', hev, ho⟩ := eval_list_from_good he index QueryStruct.new
    cases hm : qs'.«matches» with
    | none =>
      refine ⟨QueryOutput.List [], ?_⟩
      rw [to_view_parse_some hp, hev]
      show qs'.build_output = _
      simp [QueryStruct.build_output, ho, hm]
    | some ms =>
      refine ⟨QueryOutput.List (ms.map fun note => ⟨some note, none⟩), ?_⟩
      rw [to_view_parse_some hp, hev]
      show qs'.build_output = _
      simp [QueryStruct.build_output, ho, hm]

/-! ## Claim C6 — operator chains fold into a left-leaning tree -/

theorem headStops_cons {p : Char → Bool} {c : Char} {l : List Char}
    (h : p c = false) : headStops p (c :: l) := h

theorem str_mk_data (s : String) : String.mk s.data = s := by
  cases s with
  | mk d => rfl

theorem takeWhileL_append {p : Char → Bool} :
    ∀ (xs rest : List Char), (∀ c ∈ xs, p c = true) → headStops p rest →
      takeWhileL p (xs ++ rest) = (xs, rest) := by
  intro xs
  induction xs with
  | nil =>
    intro rest _ hr
    cases rest with
    | nil => rfl
    | cons c cs =>
      have hc : p c = false := hr
      simp [takeWhileL, hc]
  | cons x xs' ih =>
    intro rest hall hr
    have hx : p x = true := hall x (by simp)
    have ih' := ih rest (fun c hc => hall c (by simp [hc])) hr
    simp [takeWhileL, hx, ih']

theorem skipWs_space (l : List Char) : skipWs (' ' :: l) = skipWs l := by
  have h : (' ' : Char).isWhitespace = true := by decide
  simp [skipWs, h]

theorem skipWs_cons_not_ws {c : Char} (h : c.isWhitespace = false)
    (l : List Char) : skipWs (c :: l) = c :: l := by
  simp [skipWs, h]

theorem parseKeyword_cons (kw : String) (c : Char) (cs : List Char)
    (hstart : isIdentStart c = true) :
    parseKeyword kw (c :: cs)
      = if String.mk (c :: (takeWhileL isIdentCont cs).1) = kw
        then some (takeWhileL isIdentCont cs).2 else none := by
  simp [parseKeyword, hstart]

theorem parseOp_and (rest : List Char) (hstop : headStops isIdentCont rest) :
    parseOp ('A' :: 'N' :: 'D' :: rest) = some (Expr.And, rest) := by
  have htw : takeWhileL isIdentCont ('N' :: 'D' :: rest) = (['N', 'D'], rest) :=
    takeWhileL_append ['N', 'D'] rest (by decide) hstop
  have hAND : parseKeyword "AND" ('A' :: 'N' :: 'D' :: rest) = some rest := by
    rw [parseKeyword_cons _ _ _ (by decide), htw]
    exact if_pos rfl
  simp only [parseOp, hAND]

theorem parseOp_or (rest : List Char) (hstop : headStops isIdentCont rest) :
    parseOp ('O' :: 'R' :: rest) = some (Expr.Or, rest) := by
  have htw : takeWhileL isIdentCont ('R' :: rest) = (['R'], rest) :=
    takeWhileL_append ['R'] rest (by decide) hstop
  have hAND : parseKeyword "AND" ('O' :: 'R' :: rest) = none := by
    rw [parseKeyword_cons _ _ _ (by decide)]
    simp only [htw]
    exact if_neg (by decide)
  have hand : parseKeyword "and" ('O' :: 'R' :: rest) = none := by
    rw [parseKeyword_cons _ _ _ (by decide)]
    simp only [htw]
    exact if_neg (by decide)
  have hOR : parseKeyword "OR" ('O' :: 'R' :: rest) = some rest := by
    rw [parseKeyword_cons _ _ _ (by decide)]
    simp [htw]
  simp only [parseOp, hAND, hand, hOR]

/-- Parsing an atom of the form `space # tag-body ...`: the tag parser
consumes the tag body and the trailing whitespace. -/
theorem parseAtom_space_tag {t : String} (ht : ValidTagStr t)
    {rest : List Char} (hstop : headStops isTagPathChar rest) (m : Nat) :
    parseAtom (m + 1) (' ' :: '#' :: (t.data ++ rest))
      = some (Expr.Source (DataSource.Tag t), skipWs rest) := by
  have h0 : parseAtom (m + 1) (' ' :: '#' :: (t.data ++ rest))
      = some (Expr.Source (DataSource.Tag
          (String.mk (takeWhileL isTagPathChar (t.data ++ rest)).1)),
        skipWs (takeWhileL isTagPathChar (t.data ++ rest)).2) := rfl
  rw [h0, takeWhileL_append t.data rest ht hstop, str_mk_data]

theorem headStops_tag_sep (rest : List (Bool × String)) :
    headStops isTagPathChar (sepSpace rest ++ renderOps rest) := by
  cases rest with
  | nil => exact trivial
  | cons p r => exact headStops_cons (by decide)

theorem skipWs_sep_render (rest : List (Bool × String)) :
    skipWs (sepSpace rest ++ renderOps rest) = renderOps rest := by
  cases rest with
  | nil => rfl
  | cons p r =>
    obtain ⟨isAnd, t⟩ := p
    show skipWs (' ' :: renderOps ((isAnd, t) :: r)) = renderOps ((isAnd, t) :: r)
    rw [skipWs_space]
    cases isAnd <;>
      exact skipWs_cons_not_ws (by decide) _

theorem parseOpeRest_step {t : String} (ht : ValidTagStr t)
    {X : List Char} (hstop : headStops isTagPathChar X)
    (isAnd : Bool) (lhs : Expr) (m : Nat) :
    parseOpeRest (m + 2) lhs
        (opChars isAnd ++ (' ' :: '#' :: (t.data ++ X)))
      = parseOpeRest (m + 1)
          ((if isAnd then Expr.And else Expr.Or) lhs
            (Expr.Source (DataSource.Tag t))) (skipWs X) := by
  cases isAnd with
  | true =>
    have h1 : parseOpeRest (m + 2) lhs
        ('A' :: 'N' :: 'D' :: (' ' :: '#' :: (t.data ++ X)))
        = match parseAtom (m + 1) (' ' :: '#' :: (t.data ++ X)) with
          | some (rhs, rest') => parseOpeRest (m + 1) (Expr.And lhs rhs) rest'
          | none => some (lhs, 'A' :: 'N' :: 'D' :: (' ' :: '#' :: (t.data ++ X))) := by
      simp only [parseOpeRest]
      rw [parseOp_and _ (headStops_cons (by decide))]
    show parseOpeRest (m + 2) lhs
        ('A' :: 'N' :: 'D' :: (' ' :: '#' :: (t.data ++ X))) = _
    rw [h1, parseAtom_space_tag ht hstop m]
    exact rfl
  | false =>
    have h1 : parseOpeRest (m + 2) lhs
        ('O' :: 'R' :: (' ' :: '#' :: (t.data ++ X)))
        = match parseAtom (m + 1) (' ' :: '#' :: (t.data ++ X)) with
          | some (rhs, rest') => parseOpeRest (m + 1) (Expr.Or lhs rhs) rest'
          | none => some (lhs, 'O' :: 'R' :: (' ' :: '#' :: (t.data ++ X))) := by
      simp only [parseOpeRest]
      rw [parseOp_or _ (headStops_cons (by decide))]
    show parseOpeRest (m + 2) lhs
        ('O' :: 'R' :: (' ' :: '#' :: (t.data ++ X))) = _
    rw [h1, parseAtom_space_tag ht hstop m]
    exact rfl

theorem parseOpeRest_chain :
    ∀ (rest : List (Bool × String)) (lhs : Expr) (m : Nat),
      rest.length ≤ m →
      (∀ p ∈ rest, ValidTagStr p.2) →
      parseOpeRest (m + 1) lhs (renderOps rest)
        = some (foldChain lhs rest, []) := by
  intro rest
  induction rest with
  | nil => intro lhs m _ _; rfl
  | cons p rest' ih =>
    obtain ⟨isAnd, t⟩ := p
    intro lhs m hm hvalid
    cases m with
    | zero => simp at hm
    | succ m' =>
      have hvt : ValidTagStr t := hvalid (isAnd, t) (by simp)
      have hvr : ∀ q ∈ rest', ValidTagStr q.2 := fun q hq => hvalid q (by simp [hq])
      have hstep := parseOpeRest_step hvt (headStops_tag_sep rest') isAnd lhs m'
      show parseOpeRest (m' + 2) lhs
        (opChars isAnd ++ (' ' :: '#' :: (t.data ++
          (sepSpace rest' ++ renderOps rest')))) = _
      rw [hstep, skipWs_sep_render,
        ih ((if isAnd then Expr.And else Expr.Or) lhs
          (Expr.Source (DataSource.Tag t))) m' (by simpa using hm) hvr]
      cases isAnd <;> simp [foldChain]

theorem parseOpe_chain (t0 : String) (rest : List (Bool × String)) (m : Nat)
    (h0 : ValidTagStr t0) (hv : ∀ p ∈ rest, ValidTagStr p.2)
    (hm : rest.length ≤ m) :
    parseOpe (m + 2)
        (' ' :: '#' :: (t0.data ++ (sepSpace rest ++ renderOps rest)))
      = some (foldChain (Expr.Source (DataSource.Tag t0)) rest, []) := by
  have h1 : parseOpe (m + 2)
      (' ' :: '#' :: (t0.data ++ (sepSpace rest ++ renderOps rest)))
      = match parseAtom (m + 1)
          (' ' :: '#' :: (t0.data ++ (sepSpace rest ++ renderOps rest))) with
        | some (lhs, r) => parseOpeRest (m + 1) lhs r
        | none => none := by
    simp only [parseOpe]
  rw [h1, parseAtom_space_tag h0 (headStops_tag_sep rest) m, skipWs_sep_render]
  exact parseOpeRest_chain rest _ m hm hv

theorem parseFrom_chain (t0 : String) (rest : List (Bool × String)) (m : Nat)
    (h0 : ValidTagStr t0) (hv : ∀ p ∈ rest, ValidTagStr p.2)
    (hm : rest.length ≤ m) :
    parseFrom (m + 2)
        (' ' :: 'F' :: 'R' :: 'O' :: 'M' :: (' ' :: '#' ::
          (t0.data ++ (sepSpace rest ++ renderOps rest))))
      = some (Expr.From (foldChain (Expr.Source (DataSource.Tag t0)) rest),
          []) := by
  have hFROM : parseKeyword "FROM"
      ('F' :: 'R' :: 'O' :: 'M' :: (' ' :: '#' ::
        (t0.data ++ (sepSpace rest ++ renderOps rest))))
      = some (' ' :: '#' :: (t0.data ++ (sepSpace rest ++ renderOps rest))) := by
    rw [parseKeyword_cons _ _ _ (by decide)]
    have htw := @takeWhileL_append isIdentCont ['R', 'O', 'M']
      (' ' :: '#' :: (t0.data ++ (sepSpace rest ++ renderOps rest)))
      (by decide) (headStops_cons (by decide))
    simp only [List.cons_append, List.nil_append] at htw
    simp [htw]
  have h1 : parseFrom (m + 2)
      (' ' :: 'F' :: 'R' :: 'O' :: 'M' :: (' ' :: '#' ::
        (t0.data ++ (sepSpace rest ++ renderOps rest))))
      = match parseOpe (m + 2)
          (' ' :: '#' :: (t0.data ++ (sepSpace rest ++ renderOps rest))) with
        | some (e, rest') => some (Expr.From e, skipWs rest')
        | none => none := by
    simp only [parseFrom]
    rw [skipWs_space, skipWs_cons_not_ws (by decide), hFROM]
  rw [h1, parseOpe_chain t0 rest m h0 hv hm]
  exact rfl

theorem parseDecl_chain (t0 : String) (rest : List (Bool × String)) (m : Nat)
    (h0 : ValidTagStr t0) (hv : ∀ p ∈ rest, ValidTagStr p.2)
    (hm : rest.length ≤ m) :
    parseDecl (m + 2) (listFromChars ++ renderChain t0 rest)
      = some (Expr.List
          (Expr.From (foldChain (Expr.Source (DataSource.Tag t0)) rest)),
        []) := by
  have hnorm : listFromChars ++ renderChain t0 rest
      = 'L' :: 'I' :: 'S' :: 'T' :: (' ' :: 'F' :: 'R' :: 'O' :: 'M' ::
          (' ' :: '#' :: (t0.data ++ (sepSpace rest ++ renderOps rest)))) := by
    simp [listFromChars, renderChain]
  have hLIST : parseKeyword "LIST"
      ('L' :: 'I' :: 'S' :: 'T' :: (' ' :: 'F' :: 'R' :: 'O' :: 'M' ::
        (' ' :: '#' :: (t0.data ++ (sepSpace rest ++ renderOps rest)))))
      = some (' ' :: 'F' :: 'R' :: 'O' :: 'M' ::
          (' ' :: '#' :: (t0.data ++ (sepSpace rest ++ renderOps rest)))) := by
    rw [parseKeyword_cons _ _ _ (by decide)]
    have htw := @takeWhileL_append isIdentCont ['I', 'S', 'T']
      (' ' :: 'F' :: 'R' :: 'O' :: 'M' ::
        (' ' :: '#' :: (t0.data ++ (sepSpace rest ++ renderOps rest))))
      (by decide) (headStops_cons (by decide))
    simp only [List.cons_append, List.nil_append] at htw
    simp [htw]
  have h1 : parseDecl (m + 2) (listFromChars ++ renderChain t0 rest)
      = match parseFrom (m + 2)
          (' ' :: 'F' :: 'R' :: 'O' :: 'M' ::
            (' ' :: '#' :: (t0.data ++ (sepSpace rest ++ renderOps rest)))) with
        | some (e, rest') => some (Expr.List e, skipWs rest')
        | none => none := by
    simp only [parseDecl, hnorm]
    rw [skipWs_cons_not_ws (by decide), hLIST]
  rw [h1, parseFrom_chain t0 rest m h0 hv hm]
  exact rfl

/-- Claim C6: AND and OR have equal precedence and associate to the
left — for every rendered operator chain `#t0 OP1 #t1 ... OPn #tn` of
valid tags (with sufficient fuel, which the entry point always
supplies), the parser returns exactly the left fold of the chain, a
left-leaning binary tree; in particular `a AND b OR c` parses as
`(a AND b) OR c`, while a parenthesised sub-expression recurses into the
full expression rule, as in `a AND (b OR c)`. -/
theorem c6_parser_left_fold :
    (∀ (t0 : String) (rest : List (Bool × String)) (m : Nat),
      ValidTagStr t0 → (∀ p ∈ rest, ValidTagStr p.2) → rest.length ≤ m →
      parseDecl (m + 2) (listFromChars ++ renderChain t0 rest)
        = some (Expr.List (Expr.From
            (foldChain (Expr.Source (DataSource.Tag t0)) rest)), []))
    ∧ parseDecl ("LIST FROM #a AND #b OR #c".data.length + 1)
        "LIST FROM #a AND #b OR #c".data
        = some (Expr.List (Expr.From (Expr.Or
            (Expr.And (Expr.Source (DataSource.Tag "a"))
              (Expr.Source (DataSource.Tag "b")))
            (Expr.Source (DataSource.Tag "c")))), [])
    ∧ parseDecl ("LIST FROM #a AND (#b OR #c)".data.length + 1)
        "LIST FROM #a AND (#b OR #c)".data
        = some (Expr.List (Expr.From (Expr.And
            (Expr.Source (DataSource.Tag "a"))
            (Expr.Or (Expr.Source (DataSource.Tag "b"))
              (Expr.Source (DataSource.Tag "c"))))), []) := by
  refine ⟨?_, by decide, by decide⟩
  intro t0 rest m h0 hv hm
  exact parseDecl_chain t0 rest m h0 hv hm

/-- Witness for C6 on the concrete chain `#a AND #b OR #c`. -/
theorem c6_parser_left_fold_witness :
    parseDecl 4 (listFromChars ++ renderChain "a" [(true, "b"), (false, "c")])
      = some (Expr.List (Expr.From (Expr.Or
          (Expr.And (Expr.Source (DataSource.Tag "a"))
            (Expr.Source (DataSource.Tag "b")))
          (Expr.Source (DataSource.Tag "c")))), []) :=
  c6_parser_left_fold.1 "a" [(true, "b"), (false, "c")] 2
    (by decide) (by decide) (by decide)

end VaultDweller
